import Mathlib

/-!
Shallow embedding of the long-term memory engine
(`src/leo/memory/long_term.py` and `src/leo/clients/embedding_client.py`).

Modelling conventions:
* float values (importance, plasticity, embedding coordinates, timestamps)
  are modelled as exact rationals `ℚ`; timestamps are seconds, so the SQL
  `CURRENT_TIMESTAMP` becomes an explicit `now : ℚ` parameter and the text
  comparison `ORDER BY last_used_at` becomes `≤` on `ℚ`;
* the SQLite table `long_term_memories` becomes a `List MemoryEntry`
  (`Store`); the row order of a `SELECT` without `ORDER BY` is the list
  order; `DELETE WHERE id IN (...)` is a filter on ids;
* the float expression `dot(a,b) / (norm(a)*norm(b))` is compared against
  other such expressions through the exact order-preserving key
  `scoreKey c d` representing `c / sqrt d` (see its doc comment), so the
  code's comparisons are decided exactly instead of in floating point;
* the event log insert of `_log_event` becomes a `MemoryEvent` value, and
  each maintenance pass is factored through the list of `StoreAction`s it
  issues, in source order, so that log/delete ordering is visible.
-/

/-- A row of `long_term_memories` (the dataclass `MemoryEntry`). -/
structure MemoryEntry where
  id : Nat
  user_id : String
  owner_type : String
  content : String
  embedding : List ℚ
  tags : List String
  importance : ℚ
  plasticity : ℚ
  created_at : ℚ
  last_used_at : ℚ
  metadata : Option String
deriving DecidableEq, Repr

/-- The memory store: the rows of `long_term_memories` in row order. -/
abbrev Store := List MemoryEntry

/-- Dot product of two float vectors (`np.dot`), in exact rationals. -/
def dotQ : List ℚ → List ℚ → ℚ
  | a :: as, b :: bs => a * b + dotQ as bs
  | _, _ => 0

/-- Squared Euclidean norm: `np.linalg.norm(v) ** 2`.  The code's test
`np.linalg.norm(v) == 0` is exactly `norm2 v = 0`. -/
def norm2 (v : List ℚ) : ℚ := dotQ v v

/-- Exact order-preserving key for the float value `c / sqrt d` (for `d > 0`):
`sign(c) * c^2 / d`.  Since `x ↦ sign(x) * x^2` is strictly monotone on ℝ,
comparing keys compares the underlying scores, with no square roots. -/
def scoreKey (c d : ℚ) : ℚ := if 0 ≤ c then c ^ 2 / d else -(c ^ 2 / d)

/-- Real-valued cosine similarity `dot(a,b) / (norm(a) * norm(b))`, the
quantity the code computes in floating point. -/
noncomputable def cosineSim (a b : List ℚ) : ℝ :=
  (dotQ a b : ℝ) / (Real.sqrt (norm2 a) * Real.sqrt (norm2 b))

/-- Retrieval score of an entry: `cosine_similarity(q, e.embedding) * (1 + e.importance)`. -/
noncomputable def entryScore (q : List ℚ) (e : MemoryEntry) : ℝ :=
  cosineSim q e.embedding * (1 + (e.importance : ℝ))

/-- `list_all`: `SELECT ... WHERE user_id = ? AND owner_type = ?`. -/
def listAll (st : Store) (u o : String) : Store :=
  st.filter fun e => decide (e.user_id = u ∧ e.owner_type = o)

/-- `update_last_used`: bulk `UPDATE ... SET last_used_at=CURRENT_TIMESTAMP
WHERE id IN (...)`.  (The early return on an empty id list is the identity
map, so it needs no separate branch.) -/
def updateLastUsed (st : Store) (ids : List Nat) (now : ℚ) : Store :=
  st.map fun e => if e.id ∈ ids then { e with last_used_at := now } else e

/-- The scored candidate list built by `search`'s loop: entries whose
`denom = norm(q) * norm(e.embedding)` is zero are skipped; the others carry
the exact representation `(c, d)` of their float score
`sim * (1 + importance) = c / sqrt d` with `c = dot * (1 + importance)` and
`d = norm2 q * norm2 e`. -/
def searchScored (candidates : Store) (q : List ℚ) : List (MemoryEntry × ℚ × ℚ) :=
  candidates.filterMap fun e =>
    if norm2 q * norm2 e.embedding = 0 then none
    else some (e, dotQ q e.embedding * (1 + e.importance), norm2 q * norm2 e.embedding)

/-- Descending comparison used by `scored.sort(key=..., reverse=True)`:
`p1` may come before `p2` iff `score p2 ≤ score p1`, decided exactly. -/
def scoredGE (p1 p2 : MemoryEntry × ℚ × ℚ) : Bool :=
  decide (scoreKey p2.2.1 p2.2.2 ≤ scoreKey p1.2.1 p1.2.2)

/-- `search`: rank the partition against a query embedding, take the best
`limit` entries, and (iff the result is non-empty) touch their
`last_used_at` before returning.  Returns (results, store after the call). -/
def search (st : Store) (u o : String) (q : List ℚ) (limit : Nat) (now : ℚ) :
    List MemoryEntry × Store :=
  let candidates := listAll st u o
  if candidates.isEmpty then ([], st)
  else if norm2 q = 0 then ([], st)
  else
    let results := (((searchScored candidates q).mergeSort scoredGE).take limit).map (·.1)
    if results.isEmpty then (results, st)
    else (results, updateLastUsed st (results.map (·.id)) now)

/-- Per-row body of `decay_importance`: on rows of the partition, compute
`days = max(0, (now - last_used_at) / 86400)` and
`decayed = max(0, importance - decay_per_day * days)`; rows whose value is
unchanged are skipped, changed rows get both the new importance and
`last_used_at = CURRENT_TIMESTAMP`. -/
def decayStep (u o : String) (now rate : ℚ) (e : MemoryEntry) : MemoryEntry :=
  if e.user_id = u ∧ e.owner_type = o then
    let days := max 0 ((now - e.last_used_at) / 86400)
    let decayed := max 0 (e.importance - rate * days)
    if decayed = e.importance then e
    else { e with importance := decayed, last_used_at := now }
  else e

/-- `decay_importance` over the whole store (rows outside the partition are
not selected and stay untouched). -/
def decayImportance (st : Store) (u o : String) (now rate : ℚ) : Store :=
  st.map (decayStep u o now rate)

/-- Payload of a `memory_events` row (the JSON blob, by event type). -/
inductive EventPayload
  | pruneDropped (dropped : List Nat)
  | tagDropped (tag : String) (dropped : List Nat)
  | mergedInfo (dropped : Nat) (simNum simDen2 : ℚ)
deriving DecidableEq, Repr

/-- A row of `memory_events` (`_log_event`). -/
structure MemoryEvent where
  user_id : String
  owner_type : String
  memory_id : Option Nat
  event_type : String
  payload : EventPayload
deriving DecidableEq, Repr

/-- The ids a log record names as dropped. -/
def droppedIds : MemoryEvent → List Nat
  | ⟨_, _, _, _, .pruneDropped ds⟩ => ds
  | ⟨_, _, _, _, .tagDropped _ ds⟩ => ds
  | ⟨_, _, _, _, .mergedInfo d _ _⟩ => [d]

/-- One side effect issued by a maintenance pass, in source order: an event
log insert, or a bulk delete of ids. -/
inductive StoreAction
  | log (ev : MemoryEvent)
  | del (ids : List Nat)
deriving DecidableEq, Repr

/-- Effect of one action on the store (`_log_event` writes no memory row;
`_delete_ids` is `DELETE WHERE id IN (...)`). -/
def applyAction (st : Store) : StoreAction → Store
  | .log _ => st
  | .del ids => st.filter fun e => decide (e.id ∉ ids)

/-- Effect of a pass's whole action list on the store. -/
def applyActions (st : Store) (acts : List StoreAction) : Store :=
  acts.foldl applyAction st

/-- The eviction order `ORDER BY importance ASC, last_used_at ASC` as a
comparison: lexicographic on `(importance, last_used_at)`. -/
def capKeyLE (a b : MemoryEntry) : Bool :=
  decide (a.importance < b.importance ∨
    (a.importance = b.importance ∧ a.last_used_at ≤ b.last_used_at))

/-- The partition `ORDER BY importance ASC, last_used_at ASC` used by both
prune queries (a stable sort of the partition rows). -/
def capSorted (st : Store) (u o : String) : List MemoryEntry :=
  (listAll st u o).mergeSort capKeyLE

/-- The tag subset of the sorted partition used by `_prune_tag`
(`tag in json.loads(row["tags"])`). -/
def capSortedTag (st : Store) (u o tag : String) : List MemoryEntry :=
  (capSorted st u o).filter fun e => decide (tag ∈ e.tags)

/-- Actions issued by `_prune_total`: nothing when the partition fits the
cap, otherwise one `prune_total` log naming the dropped ids followed by
their delete. -/
def pruneTotalActs (st : Store) (u o : String) (cap : Nat) : List StoreAction :=
  let rows := capSorted st u o
  if rows.length ≤ cap then []
  else
    let toDrop := (rows.take (rows.length - cap)).map (·.id)
    [.log ⟨u, o, none, "prune_total", .pruneDropped toDrop⟩, .del toDrop]

/-- `_prune_total` applied to the store. -/
def pruneTotal (st : Store) (u o : String) (cap : Nat) : Store :=
  applyActions st (pruneTotalActs st u o cap)

/-- Actions issued by `_prune_tag`: nothing when the tag subset fits the
cap, otherwise one `prune_tag` log followed by the delete. -/
def pruneTagActs (st : Store) (u o tag : String) (cap : Nat) : List StoreAction :=
  let tagged := capSortedTag st u o tag
  if tagged.length ≤ cap then []
  else
    let toDrop := (tagged.take (tagged.length - cap)).map (·.id)
    [.log ⟨u, o, none, "prune_tag", .tagDropped tag toDrop⟩, .del toDrop]

/-- `_prune_tag` applied to the store. -/
def pruneTag (st : Store) (u o tag : String) (cap : Nat) : Store :=
  applyActions st (pruneTagActs st u o tag cap)

/-- `prune_caps`: total cap for each owner type, then, for each configured
tag in order, the tag cap for each owner type. -/
def pruneCaps (st : Store) (u : String) (capU capA : Nat)
    (tagCaps : List (String × Nat)) : Store :=
  let st2 := pruneTotal (pruneTotal st u "user" capU) u "assistant" capA
  tagCaps.foldl
    (fun s tc => pruneTag (pruneTag s u "user" tc.1 tc.2) u "assistant" tc.1 tc.2) st2

/-- The `denom = norms[i] * norms[j]` test of the merge loop, squared
(`denom == 0` iff `norm2 i * norm2 j == 0` in exact arithmetic). -/
def mergeDen2 (a b : MemoryEntry) : ℚ := norm2 a.embedding * norm2 b.embedding

/-- The merge condition `sim >= similarity_merge_threshold`, decided
exactly: `dot / sqrt den2 ≥ th` iff `scoreKey th 1 ≤ scoreKey dot den2`. -/
def simAtLeast (th : ℚ) (a b : MemoryEntry) : Bool :=
  decide (scoreKey th 1 ≤ scoreKey (dotQ a.embedding b.embedding) (mergeDen2 a b))

/-- The `merged` event: keyed on the survivor, payload naming the dropped
id and the measured similarity (kept exactly as the pair `(dot, den2)` with
similarity `dot / sqrt den2`). -/
def mergedEvent (u o : String) (keep dropd : MemoryEntry) : MemoryEvent :=
  ⟨u, o, some keep.id, "merged",
    .mergedInfo dropd.id (dotQ keep.embedding dropd.embedding) (mergeDen2 keep dropd)⟩

/-- Inner loop of `merge_redundant` for a fixed `mi`: scan the remaining
entries `mj`, skipping ones already marked, zero denominators, and pairs
below threshold; otherwise keep the higher-importance member (`mi` on
ties), log the `merged` event and mark the other for deletion. -/
def mergeInner (th : ℚ) (u o : String) (mi : MemoryEntry) :
    List MemoryEntry → List Nat → List MemoryEvent → List Nat × List MemoryEvent
  | [], td, evs => (td, evs)
  | mj :: rest, td, evs =>
    if mj.id ∈ td then mergeInner th u o mi rest td evs
    else if mergeDen2 mi mj = 0 then mergeInner th u o mi rest td evs
    else if simAtLeast th mi mj then
      if mj.importance ≤ mi.importance then
        mergeInner th u o mi rest (td ++ [mj.id]) (evs ++ [mergedEvent u o mi mj])
      else
        mergeInner th u o mi rest (td ++ [mi.id]) (evs ++ [mergedEvent u o mj mi])
    else mergeInner th u o mi rest td evs

/-- Outer loop of `merge_redundant`: entries already marked when their turn
comes are skipped (but an entry marked mid-scan still finishes acting as
`mi` for its current inner loop — that check happens only here). -/
def mergeOuter (th : ℚ) (u o : String) :
    List MemoryEntry → List Nat → List MemoryEvent → List Nat × List MemoryEvent
  | [], td, evs => (td, evs)
  | mi :: rest, td, evs =>
    if mi.id ∈ td then mergeOuter th u o rest td evs
    else
      let p := mergeInner th u o mi rest td evs
      mergeOuter th u o rest p.1 p.2

/-- The scan phase of `merge_redundant`: the set of ids marked for deletion
(in marking order) and the `merged` events logged, for one partition. -/
def mergeScan (st : Store) (u o : String) (th : ℚ) : List Nat × List MemoryEvent :=
  let memories := listAll st u o
  if memories.length < 2 then ([], [])
  else mergeOuter th u o memories [] []

/-- Actions issued by `merge_redundant`, in source order: every `merged`
log happens during the scan, then the single batch delete (only when the
marked set is non-empty). -/
def mergeActs (st : Store) (u o : String) (th : ℚ) : List StoreAction :=
  let p := mergeScan st u o th
  p.2.map .log ++ (if p.1.isEmpty then [] else [.del p.1])

/-- `merge_redundant` applied to the store. -/
def mergeRedundant (st : Store) (u o : String) (th : ℚ) : Store :=
  applyActions st (mergeActs st u o th)

/-- New surrogate row id (`cursor.lastrowid` of the INSERT). -/
def nextId (st : Store) : Nat := (st.foldl (fun m e => max m e.id) 0) + 1

/-- `add_memory`.  `emb = embedding or self.embed_text(content)`: a falsy
`embedding` argument — absent or the empty vector — falls through to the
embedding provider, whose failure aborts the call before any insert; the
insert itself appends one row with the caller's importance stored as given
and both timestamps set to now.  Returns the new store and row id, or the
provider's error. -/
def addMemory (embed : String → Except String (List ℚ)) (st : Store)
    (u o content : String) (tags : List String) (importance plasticity : ℚ)
    (metadata : Option String) (embedding : Option (List ℚ)) (now : ℚ) :
    Except String (Store × Nat) :=
  let embRes : Except String (List ℚ) :=
    match embedding with
    | some v => if v.isEmpty then embed content else .ok v
    | none => embed content
  match embRes with
  | .error err => .error err
  | .ok emb =>
    .ok (st ++ [⟨nextId st, u, o, content, emb, tags, importance, plasticity,
                 now, now, metadata⟩], nextId st)

/-- Store states reachable from the empty store through the public
operations (`add_memory` with in-range importance, `search`,
`decay_importance`, `prune_caps`, `merge_redundant`; `list_all` reads
only).  The decay rate, merge threshold and caps are the fixed
engine configuration. -/
inductive Reach (embed : String → Except String (List ℚ)) (rate th : ℚ)
    (capU capA : Nat) (tagCaps : List (String × Nat)) : Store → Prop
  | init : Reach embed rate th capU capA tagCaps []
  | add {st st2 : Store} {u o c : String} {tags : List String}
      {imp pl : ℚ} {md : Option String} {emb : Option (List ℚ)} {now : ℚ} {i : Nat} :
      Reach embed rate th capU capA tagCaps st → 0 ≤ imp → imp ≤ 1 →
      addMemory embed st u o c tags imp pl md emb now = .ok (st2, i) →
      Reach embed rate th capU capA tagCaps st2
  | srch {st : Store} {u o : String} {q : List ℚ} {lim : Nat} {now : ℚ} :
      Reach embed rate th capU capA tagCaps st →
      Reach embed rate th capU capA tagCaps (search st u o q lim now).2
  | decay {st : Store} {u o : String} {now : ℚ} :
      Reach embed rate th capU capA tagCaps st →
      Reach embed rate th capU capA tagCaps (decayImportance st u o now rate)
  | prune {st : Store} {u : String} :
      Reach embed rate th capU capA tagCaps st →
      Reach embed rate th capU capA tagCaps (pruneCaps st u capU capA tagCaps)
  | merge {st : Store} {u o : String} :
      Reach embed rate th capU capA tagCaps st →
      Reach embed rate th capU capA tagCaps (mergeRedundant st u o th)

/-- Row counter for the total cap: entries in a `(user, owner)` partition. -/
def countOwner (st : Store) (u o : String) : Nat := (listAll st u o).length

/-- Row counter for a tag cap: partition entries carrying the tag. -/
def countTag (st : Store) (u o tag : String) : Nat :=
  ((listAll st u o).filter fun e => decide (tag ∈ e.tags)).length

/-- Log-then-delete discipline of an action trace: every id a delete action
removes was named as dropped by a strictly earlier log action. -/
def LoggedBeforeDeleted (acts : List StoreAction) : Prop :=
  ∀ i ids, acts.get? i = some (.del ids) →
    ∀ mid ∈ ids, ∃ j, j < i ∧ ∃ ev, acts.get? j = some (.log ev) ∧ mid ∈ droppedIds ev

/-- Concrete partition rows used to evaluate the engine on explicit inputs:
three entries of one `("u", "user")` partition with identical embeddings
(pairwise cosine similarity 1) and importances 1/2, 3/5, 2/5. -/
def entA : MemoryEntry := ⟨1, "u", "user", "a", [1], ["preference"], 1/2, 1/2, 0, 0, none⟩

/-- Second demo row (highest importance of the three). -/
def entB : MemoryEntry := ⟨2, "u", "user", "b", [1], ["preference"], 3/5, 1/2, 0, 0, none⟩

/-- Third demo row (lowest importance of the three). -/
def entC : MemoryEntry := ⟨3, "u", "user", "c", [1], [], 2/5, 1/2, 0, 0, none⟩

/-- Demo row with importance exactly 0 and an old `last_used_at`. -/
def entZ : MemoryEntry := ⟨4, "u", "user", "z", [1], [], 0, 1/2, 0, 0, none⟩

/-- Demo store holding the three similar entries. -/
def demoStore : Store := [entA, entB, entC]

/-- An embedding provider that always fails (endpoint unreachable). -/
def embedFail : String → Except String (List ℚ) := fun _ => .error "offline"

lemma dotQ_self_nonneg (v : List ℚ) : 0 ≤ dotQ v v := by
  induction v with
  | nil => simp [dotQ]
  | cons a as ih => simpa [dotQ] using add_nonneg (mul_self_nonneg a) ih

lemma norm2_nonneg (v : List ℚ) : 0 ≤ norm2 v := dotQ_self_nonneg v

lemma norm2_pos_of_ne {v : List ℚ} (h : norm2 v ≠ 0) : 0 < norm2 v :=
  lt_of_le_of_ne (norm2_nonneg v) (Ne.symm h)

/-- The signed-square map is monotone-reflecting on ℝ. -/
lemma signedSq_le_iff {x y : ℝ} :
    ((if 0 ≤ x then x ^ 2 else -(x ^ 2)) ≤ (if 0 ≤ y then y ^ 2 else -(y ^ 2))) ↔ x ≤ y := by
  split_ifs with hx hy hy
  · constructor
    · intro h; nlinarith
    · intro h; nlinarith
  · push_neg at hy
    constructor
    · intro h; nlinarith
    · intro h; nlinarith
  · push_neg at hx
    constructor
    · intro _; linarith
    · intro _; nlinarith
  · push_neg at hx hy
    constructor
    · intro h; nlinarith
    · intro h; nlinarith

/-- `scoreKey c d` is the signed square of the real value `c / sqrt d`. -/
lemma scoreKey_cast {c d : ℚ} (hd : 0 < d) :
    ((scoreKey c d : ℚ) : ℝ) =
      (if 0 ≤ ((c : ℝ) / Real.sqrt d) then ((c : ℝ) / Real.sqrt d) ^ 2
       else -(((c : ℝ) / Real.sqrt d) ^ 2)) := by
  have hds : (0 : ℝ) < Real.sqrt d := Real.sqrt_pos.2 (by exact_mod_cast hd)
  have hsq : ((c : ℝ) / Real.sqrt d) ^ 2 = (c : ℝ) ^ 2 / (d : ℝ) := by
    rw [div_pow, Real.sq_sqrt (by positivity)]
  have hsgn : (0 ≤ (c : ℝ) / Real.sqrt d) ↔ 0 ≤ c := by
    rw [le_div_iff₀ hds, zero_mul]
    exact_mod_cast Iff.rfl
  unfold scoreKey
  split_ifs with h1 h2 h2
  · rw [hsq]; push_cast; ring
  · exact absurd (hsgn.2 h1) h2
  · exact absurd (hsgn.1 h2) h1
  · rw [hsq]; push_cast; ring

/-- Comparing exact keys is comparing the underlying float scores. -/
lemma scoreKey_le_iff {c1 d1 c2 d2 : ℚ} (h1 : 0 < d1) (h2 : 0 < d2) :
    scoreKey c1 d1 ≤ scoreKey c2 d2 ↔
      ((c1 : ℝ) / Real.sqrt d1 ≤ (c2 : ℝ) / Real.sqrt d2) := by
  rw [← Rat.cast_le (K := ℝ), scoreKey_cast h1, scoreKey_cast h2, signedSq_le_iff]

/-- The merge comparison decides the real cosine threshold test. -/
lemma simAtLeast_iff {th : ℚ} {a b : MemoryEntry}
    (ha : norm2 a.embedding ≠ 0) (hb : norm2 b.embedding ≠ 0) :
    simAtLeast th a b = true ↔ (th : ℝ) ≤ cosineSim a.embedding b.embedding := by
  have hpa := norm2_pos_of_ne ha
  have hpb := norm2_pos_of_ne hb
  have hd : 0 < mergeDen2 a b := mul_pos hpa hpb
  unfold simAtLeast
  rw [decide_eq_true_iff, scoreKey_le_iff one_pos hd]
  unfold cosineSim mergeDen2
  rw [Rat.cast_mul, Real.sqrt_mul (by exact_mod_cast norm2_nonneg a.embedding)]
  simp

/-- The retrieval score as one square-rooted quotient, matching the exact
`(c, d)` pair the embedded `search` carries for each candidate. -/
lemma entryScore_eq (q : List ℚ) (e : MemoryEntry) :
    entryScore q e =
      ((dotQ q e.embedding * (1 + e.importance) : ℚ) : ℝ) /
        Real.sqrt ((norm2 q * norm2 e.embedding : ℚ)) := by
  unfold entryScore cosineSim
  push_cast
  rw [Real.sqrt_mul (by exact_mod_cast norm2_nonneg q)]
  ring

/-- The descending comparison of `search` transfers to real scores. -/
lemma scoredGE_entryScore {q : List ℚ} {p1 p2 : MemoryEntry × ℚ × ℚ}
    (e1 : p1 = (p1.1, dotQ q p1.1.embedding * (1 + p1.1.importance),
                 norm2 q * norm2 p1.1.embedding))
    (e2 : p2 = (p2.1, dotQ q p2.1.embedding * (1 + p2.1.importance),
                 norm2 q * norm2 p2.1.embedding))
    (d1 : (0 : ℚ) < norm2 q * norm2 p1.1.embedding)
    (d2 : (0 : ℚ) < norm2 q * norm2 p2.1.embedding)
    (h : scoredGE p1 p2 = true) : entryScore q p2.1 ≤ entryScore q p1.1 := by
  unfold scoredGE at h
  rw [decide_eq_true_iff] at h
  rw [entryScore_eq q p1.1, entryScore_eq q p2.1]
  rw [e1, e2] at h
  exact (scoreKey_le_iff d2 d1).1 h

lemma scoredGE_trans (a b c : MemoryEntry × ℚ × ℚ)
    (h1 : scoredGE a b = true) (h2 : scoredGE b c = true) : scoredGE a c = true := by
  unfold scoredGE at *
  rw [decide_eq_true_iff] at *
  exact le_trans h2 h1

lemma scoredGE_total (a b : MemoryEntry × ℚ × ℚ) :
    (scoredGE a b || scoredGE b a) = true := by
  unfold scoredGE
  rcases le_total (scoreKey b.2.1 b.2.2) (scoreKey a.2.1 a.2.2) with h | h
  · simp [h]
  · simp [h]

lemma capKeyLE_trans (a b c : MemoryEntry)
    (h1 : capKeyLE a b = true) (h2 : capKeyLE b c = true) : capKeyLE a c = true := by
  unfold capKeyLE at *
  rw [decide_eq_true_iff] at *
  rcases h1 with h1 | ⟨h1e, h1u⟩ <;> rcases h2 with h2 | ⟨h2e, h2u⟩
  · exact Or.inl (lt_trans h1 h2)
  · exact Or.inl (h2e ▸ h1)
  · exact Or.inl (h1e ▸ h2)
  · exact Or.inr ⟨h1e.trans h2e, le_trans h1u h2u⟩

lemma capKeyLE_total (a b : MemoryEntry) : (capKeyLE a b || capKeyLE b a) = true := by
  unfold capKeyLE
  rcases lt_trichotomy a.importance b.importance with h | h | h
  · simp [h]
  · rcases le_total a.last_used_at b.last_used_at with hu | hu
    · simp [h, hu]
    · simp [h, hu]
  · simp [h]

lemma applyAction_sublist (st : Store) (a : StoreAction) : (applyAction st a).Sublist st := by
  cases a with
  | log ev => exact List.Sublist.refl st
  | del ids => exact List.filter_sublist st

lemma applyActions_sublist (acts : List StoreAction) (st : Store) :
    (applyActions st acts).Sublist st := by
  induction acts generalizing st with
  | nil => exact List.Sublist.refl st
  | cons a rest ih =>
    exact List.Sublist.trans (ih (applyAction st a)) (applyAction_sublist st a)

lemma listAll_sublist {st1 st2 : Store} (u o : String) (h : st1.Sublist st2) :
    (listAll st1 u o).Sublist (listAll st2 u o) := h.filter _

lemma countOwner_mono {st1 st2 : Store} (u o : String) (h : st1.Sublist st2) :
    countOwner st1 u o ≤ countOwner st2 u o :=
  (listAll_sublist u o h).length_le

lemma countTag_mono {st1 st2 : Store} (u o tag : String) (h : st1.Sublist st2) :
    countTag st1 u o tag ≤ countTag st2 u o tag :=
  ((listAll_sublist u o h).filter _).length_le

lemma pruneTotal_sublist (st : Store) (u o : String) (cap : Nat) :
    (pruneTotal st u o cap).Sublist st := applyActions_sublist _ st

lemma pruneTag_sublist (st : Store) (u o tag : String) (cap : Nat) :
    (pruneTag st u o tag cap).Sublist st := applyActions_sublist _ st

lemma mergeRedundant_sublist (st : Store) (u o : String) (th : ℚ) :
    (mergeRedundant st u o th).Sublist st := applyActions_sublist _ st

lemma pruneTotal_eq (st : Store) (u o : String) (cap : Nat) :
    pruneTotal st u o cap =
      if (capSorted st u o).length ≤ cap then st
      else st.filter fun e =>
        decide (e.id ∉ ((capSorted st u o).take ((capSorted st u o).length - cap)).map (·.id)) := by
  simp only [pruneTotal, pruneTotalActs]
  split_ifs with h <;> rfl

lemma pruneTag_eq (st : Store) (u o tag : String) (cap : Nat) :
    pruneTag st u o tag cap =
      if (capSortedTag st u o tag).length ≤ cap then st
      else st.filter fun e =>
        decide (e.id ∉
          ((capSortedTag st u o tag).take ((capSortedTag st u o tag).length - cap)).map (·.id)) := by
  simp only [pruneTag, pruneTagActs]
  split_ifs with h <;> rfl

/-- Dropping the first `length - cap` rows of a list (by id) leaves at most
`cap` rows, even without assuming ids unique. -/
lemma length_filter_ban_le (l : List MemoryEntry) (cap : Nat) (h : cap < l.length) :
    (l.filter fun e => decide (e.id ∉ (l.take (l.length - cap)).map (·.id))).length ≤ cap := by
  have hsplit := List.take_append_drop (l.length - cap) l
  set p : MemoryEntry → Bool :=
    fun e => decide (e.id ∉ (l.take (l.length - cap)).map (·.id)) with hp
  have htake : (l.take (l.length - cap)).filter p = [] := by
    apply List.filter_eq_nil_iff.2
    intro e he
    simp only [hp, decide_eq_true_iff, not_not]
    exact List.mem_map.2 ⟨e, he, rfl⟩
  calc (l.filter p).length
      = ((l.take (l.length - cap) ++ l.drop (l.length - cap)).filter p).length := by
        rw [hsplit]
    _ = ((l.take (l.length - cap)).filter p).length
          + ((l.drop (l.length - cap)).filter p).length := by
        rw [List.filter_append, List.length_append]
    _ = ((l.drop (l.length - cap)).filter p).length := by rw [htake]; simp
    _ ≤ (l.drop (l.length - cap)).length := List.length_filter_le _ _
    _ = l.length - (l.length - cap) := List.length_drop _ _
    _ = cap := Nat.sub_sub_self (le_of_lt h)

lemma listAll_filter (st : Store) (p : MemoryEntry → Bool) (u o : String) :
    listAll (st.filter p) u o = (listAll st u o).filter p := by
  unfold listAll
  rw [List.filter_filter, List.filter_filter]
  congr 1
  funext e
  exact Bool.and_comm _ _

lemma capSorted_perm (st : Store) (u o : String) :
    (capSorted st u o).Perm (listAll st u o) := List.mergeSort_perm _ _

/-- After `_prune_total`, the partition fits the cap. -/
lemma countOwner_pruneTotal_le (st : Store) (u o : String) (cap : Nat) :
    countOwner (pruneTotal st u o cap) u o ≤ cap := by
  rw [pruneTotal_eq]
  split_ifs with h
  · unfold countOwner
    calc (listAll st u o).length = (capSorted st u o).length :=
          ((capSorted_perm st u o).length_eq).symm
      _ ≤ cap := h
  · push_neg at h
    unfold countOwner
    rw [listAll_filter]
    calc ((listAll st u o).filter _).length
        = ((capSorted st u o).filter _).length :=
          (List.Perm.length_eq (((capSorted_perm st u o).symm).filter _))
      _ ≤ cap := length_filter_ban_le _ cap h

lemma filter_swap {α : Type} (l : List α) (p q : α → Bool) :
    (l.filter p).filter q = (l.filter q).filter p := by
  rw [List.filter_filter, List.filter_filter]
  congr 1
  funext e
  exact Bool.and_comm _ _

/-- After `_prune_tag`, the tag subset of the partition fits the cap. -/
lemma countTag_pruneTag_le (st : Store) (u o tag : String) (cap : Nat) :
    countTag (pruneTag st u o tag cap) u o tag ≤ cap := by
  have hperm : ((listAll st u o).filter fun e => decide (tag ∈ e.tags)).Perm
      (capSortedTag st u o tag) := ((capSorted_perm st u o).symm).filter _
  rw [pruneTag_eq]
  split_ifs with h
  · unfold countTag
    calc ((listAll st u o).filter fun e => decide (tag ∈ e.tags)).length
        = (capSortedTag st u o tag).length := hperm.length_eq
      _ ≤ cap := h
  · push_neg at h
    unfold countTag
    rw [listAll_filter, filter_swap]
    calc (((listAll st u o).filter fun e => decide (tag ∈ e.tags)).filter _).length
        = ((capSortedTag st u o tag).filter _).length :=
          (hperm.filter _).length_eq
      _ ≤ cap := length_filter_ban_le _ cap h

lemma foldl_pruneTags_sublist (u : String) (tcs : List (String × Nat)) (st : Store) :
    ((tcs.foldl
      (fun s tc => pruneTag (pruneTag s u "user" tc.1 tc.2) u "assistant" tc.1 tc.2) st)).Sublist
      st := by
  induction tcs generalizing st with
  | nil => exact List.Sublist.refl st
  | cons tc rest ih =>
    refine List.Sublist.trans (ih _) ?_
    exact List.Sublist.trans (pruneTag_sublist _ u "assistant" tc.1 tc.2)
      (pruneTag_sublist _ u "user" tc.1 tc.2)

lemma foldl_pruneTags_tag_le (u : String) (tcs : List (String × Nat)) (st : Store) :
    ∀ tc ∈ tcs,
      countTag (tcs.foldl
        (fun s tc => pruneTag (pruneTag s u "user" tc.1 tc.2) u "assistant" tc.1 tc.2) st)
        u "user" tc.1 ≤ tc.2 ∧
      countTag (tcs.foldl
        (fun s tc => pruneTag (pruneTag s u "user" tc.1 tc.2) u "assistant" tc.1 tc.2) st)
        u "assistant" tc.1 ≤ tc.2 := by
  induction tcs generalizing st with
  | nil => intro tc h; cases h
  | cons tc0 rest ih =>
    intro tc hmem
    rw [List.foldl_cons]
    rcases List.mem_cons.1 hmem with heq | hrest
    · subst heq
      set st1 := pruneTag st u "user" tc.1 tc.2 with hst1
      set st2 := pruneTag st1 u "assistant" tc.1 tc.2 with hst2
      have hu : countTag st2 u "user" tc.1 ≤ tc.2 := by
        calc countTag st2 u "user" tc.1 ≤ countTag st1 u "user" tc.1 :=
              countTag_mono u "user" tc.1 (pruneTag_sublist st1 u "assistant" tc.1 tc.2)
          _ ≤ tc.2 := countTag_pruneTag_le st u "user" tc.1 tc.2
      have ha : countTag st2 u "assistant" tc.1 ≤ tc.2 :=
        countTag_pruneTag_le st1 u "assistant" tc.1 tc.2
      constructor
      · exact le_trans
          (countTag_mono u "user" tc.1 (foldl_pruneTags_sublist u rest st2)) hu
      · exact le_trans
          (countTag_mono u "assistant" tc.1 (foldl_pruneTags_sublist u rest st2)) ha
    · exact ih _ tc hrest

lemma capSorted_sorted (st : Store) (u o : String) :
    (capSorted st u o).Pairwise (fun a b => capKeyLE a b = true) :=
  List.sorted_mergeSort capKeyLE_trans capKeyLE_total _

lemma capSorted_mem_store {st : Store} {u o : String} {e : MemoryEntry}
    (h : e ∈ capSorted st u o) : e ∈ st :=
  List.filter_sublist st |>.mem ((capSorted_perm st u o).mem_iff.1 h)

lemma capSorted_ids_nodup {st : Store} (u o : String)
    (hN : (st.map (·.id)).Nodup) : ((capSorted st u o).map (·.id)).Nodup := by
  have h1 : ((listAll st u o).map (·.id)).Nodup :=
    ((List.filter_sublist st).map (·.id)).nodup hN
  exact (((capSorted_perm st u o).map (·.id)).nodup_iff).2 h1

/-- Splitting a sorted row list at the eviction cut: everything before the
cut is deleted by the ban filter, everything after survives (ids unique). -/
lemma ban_take_mem (st : Store) (l : List MemoryEntry) (k : Nat)
    (hnd : (l.map (·.id)).Nodup) (hmem : ∀ e ∈ l, e ∈ st) :
    (∀ e ∈ l.take k, e ∉ st.filter fun x => decide (x.id ∉ (l.take k).map (·.id))) ∧
    (∀ e ∈ l.drop k, e ∈ st.filter fun x => decide (x.id ∉ (l.take k).map (·.id))) := by
  constructor
  · intro e he hf
    rw [List.mem_filter] at hf
    exact (of_decide_eq_true hf.2) (List.mem_map.2 ⟨e, he, rfl⟩)
  · intro e he
    rw [List.mem_filter]
    refine ⟨hmem e (List.drop_subset k l he), decide_eq_true ?_⟩
    intro hid
    rw [← List.take_append_drop k l, List.map_append] at hnd
    exact (List.nodup_append.1 hnd).2.2 hid (List.mem_map.2 ⟨e, he, rfl⟩)

lemma mergeInner_td_mono (th : ℚ) (u o : String) (mi : MemoryEntry) :
    ∀ (rest : List MemoryEntry) (td : List Nat) (evs : List MemoryEvent),
      td ⊆ (mergeInner th u o mi rest td evs).1 := by
  intro rest
  induction rest with
  | nil => intro td evs; simp [mergeInner]
  | cons mj rest ih =>
    intro td evs
    simp only [mergeInner]
    split_ifs with h1 h2 h3 h4
    · exact ih td evs
    · exact ih td evs
    · exact List.Subset.trans (List.subset_append_left td [mj.id]) (ih _ _)
    · exact List.Subset.trans (List.subset_append_left td [mi.id]) (ih _ _)
    · exact ih td evs

lemma mergeInner_evs_mono (th : ℚ) (u o : String) (mi : MemoryEntry) :
    ∀ (rest : List MemoryEntry) (td : List Nat) (evs : List MemoryEvent),
      evs ⊆ (mergeInner th u o mi rest td evs).2 := by
  intro rest
  induction rest with
  | nil => intro td evs; simp [mergeInner]
  | cons mj rest ih =>
    intro td evs
    simp only [mergeInner]
    split_ifs with h1 h2 h3 h4
    · exact ih td evs
    · exact ih td evs
    · exact List.Subset.trans (List.subset_append_left evs _) (ih _ _)
    · exact List.Subset.trans (List.subset_append_left evs _) (ih _ _)
    · exact ih td evs

lemma mergeOuter_td_mono (th : ℚ) (u o : String) :
    ∀ (ms : List MemoryEntry) (td : List Nat) (evs : List MemoryEvent),
      td ⊆ (mergeOuter th u o ms td evs).1 := by
  intro ms
  induction ms with
  | nil => intro td evs; simp [mergeOuter]
  | cons mi rest ih =>
    intro td evs
    simp only [mergeOuter]
    split_ifs with h1
    · exact ih td evs
    · exact List.Subset.trans (mergeInner_td_mono th u o mi rest td evs) (ih _ _)

lemma mergeOuter_evs_mono (th : ℚ) (u o : String) :
    ∀ (ms : List MemoryEntry) (td : List Nat) (evs : List MemoryEvent),
      evs ⊆ (mergeOuter th u o ms td evs).2 := by
  intro ms
  induction ms with
  | nil => intro td evs; simp [mergeOuter]
  | cons mi rest ih =>
    intro td evs
    simp only [mergeOuter]
    split_ifs with h1
    · exact ih td evs
    · exact List.Subset.trans (mergeInner_evs_mono th u o mi rest td evs) (ih _ _)

lemma mergeInner_evs_sound (th : ℚ) (u o : String) (mi : MemoryEntry) :
    ∀ (rest : List MemoryEntry) (td : List Nat) (evs : List MemoryEvent),
      ∀ ev ∈ (mergeInner th u o mi rest td evs).2,
        ev ∈ evs ∨
        ∃ mj ∈ rest, mergeDen2 mi mj ≠ 0 ∧ simAtLeast th mi mj = true ∧
          ((mj.importance ≤ mi.importance ∧ ev = mergedEvent u o mi mj ∧
              mj.id ∈ (mergeInner th u o mi rest td evs).1) ∨
           (¬(mj.importance ≤ mi.importance) ∧ ev = mergedEvent u o mj mi ∧
              mi.id ∈ (mergeInner th u o mi rest td evs).1)) := by
  intro rest
  induction rest with
  | nil => intro td evs ev hev; simp only [mergeInner] at hev; exact Or.inl hev
  | cons mj rest ih =>
    intro td evs ev hev
    simp only [mergeInner] at hev ⊢
    split_ifs at hev ⊢ with h1 h2 h3 h4
    · rcases ih td evs ev hev with h | ⟨mj2, hm, hden, hsim, hcase⟩
      · exact Or.inl h
      · exact Or.inr ⟨mj2, List.mem_cons_of_mem mj hm, hden, hsim, hcase⟩
    · rcases ih td evs ev hev with h | ⟨mj2, hm, hden, hsim, hcase⟩
      · exact Or.inl h
      · exact Or.inr ⟨mj2, List.mem_cons_of_mem mj hm, hden, hsim, hcase⟩
    · rcases ih _ _ ev hev with h | ⟨mj2, hm, hden, hsim, hcase⟩
      · rcases List.mem_append.1 h with h | h
        · exact Or.inl h
        · rcases List.mem_singleton.1 h with rfl
          refine Or.inr ⟨mj, List.mem_cons_self mj rest, h2, h3, Or.inl ⟨h4, rfl, ?_⟩⟩
          exact mergeInner_td_mono th u o mi rest _ _
            (List.mem_append.2 (Or.inr (List.mem_singleton.2 rfl)))
      · exact Or.inr ⟨mj2, List.mem_cons_of_mem mj hm, hden, hsim, hcase⟩
    · rcases ih _ _ ev hev with h | ⟨mj2, hm, hden, hsim, hcase⟩
      · rcases List.mem_append.1 h with h | h
        · exact Or.inl h
        · rcases List.mem_singleton.1 h with rfl
          refine Or.inr ⟨mj, List.mem_cons_self mj rest, h2, h3, Or.inr ⟨h4, rfl, ?_⟩⟩
          exact mergeInner_td_mono th u o mi rest _ _
            (List.mem_append.2 (Or.inr (List.mem_singleton.2 rfl)))
      · exact Or.inr ⟨mj2, List.mem_cons_of_mem mj hm, hden, hsim, hcase⟩
    · rcases ih td evs ev hev with h | ⟨mj2, hm, hden, hsim, hcase⟩
      · exact Or.inl h
      · exact Or.inr ⟨mj2, List.mem_cons_of_mem mj hm, hden, hsim, hcase⟩

lemma mergeOuter_evs_sound (th : ℚ) (u o : String) :
    ∀ (ms : List MemoryEntry) (td : List Nat) (evs : List MemoryEvent),
      ∀ ev ∈ (mergeOuter th u o ms td evs).2,
        ev ∈ evs ∨
        ∃ X Y, [X, Y].Sublist ms ∧ mergeDen2 X Y ≠ 0 ∧ simAtLeast th X Y = true ∧
          ((Y.importance ≤ X.importance ∧ ev = mergedEvent u o X Y ∧
              Y.id ∈ (mergeOuter th u o ms td evs).1) ∨
           (¬(Y.importance ≤ X.importance) ∧ ev = mergedEvent u o Y X ∧
              X.id ∈ (mergeOuter th u o ms td evs).1)) := by
  intro ms
  induction ms with
  | nil => intro td evs ev hev; simp only [mergeOuter] at hev; exact Or.inl hev
  | cons mi rest ih =>
    intro td evs ev hev
    simp only [mergeOuter] at hev ⊢
    split_ifs at hev ⊢ with h1
    · rcases ih td evs ev hev with h | ⟨X, Y, hsub, hden, hsim, hcase⟩
      · exact Or.inl h
      · exact Or.inr ⟨X, Y, hsub.trans (List.sublist_cons_self mi rest), hden, hsim, hcase⟩
    · rcases ih _ _ ev hev with h | ⟨X, Y, hsub, hden, hsim, hcase⟩
      · rcases mergeInner_evs_sound th u o mi rest td evs ev h with
          h2 | ⟨mj, hm, hden, hsim, hcase⟩
        · exact Or.inl h2
        · refine Or.inr ⟨mi, mj, ?_, hden, hsim, ?_⟩
          · exact List.Sublist.cons₂ mi (List.singleton_sublist.2 hm)
          · rcases hcase with ⟨hle, hev2, hmem⟩ | ⟨hle, hev2, hmem⟩
            · exact Or.inl ⟨hle, hev2, mergeOuter_td_mono th u o rest _ _ hmem⟩
            · exact Or.inr ⟨hle, hev2, mergeOuter_td_mono th u o rest _ _ hmem⟩
      · exact Or.inr ⟨X, Y, hsub.trans (List.sublist_cons_self mi rest), hden, hsim, hcase⟩

lemma mergeInner_td_sound (th : ℚ) (u o : String) (mi : MemoryEntry) :
    ∀ (rest : List MemoryEntry) (td : List Nat) (evs : List MemoryEvent),
      ∀ mid ∈ (mergeInner th u o mi rest td evs).1,
        mid ∈ td ∨ ∃ ev ∈ (mergeInner th u o mi rest td evs).2, droppedIds ev = [mid] := by
  intro rest
  induction rest with
  | nil => intro td evs mid hmid; simp only [mergeInner] at hmid; exact Or.inl hmid
  | cons mj rest ih =>
    intro td evs mid hmid
    simp only [mergeInner] at hmid ⊢
    split_ifs at hmid ⊢ with h1 h2 h3 h4
    · exact ih td evs mid hmid
    · exact ih td evs mid hmid
    · rcases ih _ _ mid hmid with h | h
      · rcases List.mem_append.1 h with h | h
        · exact Or.inl h
        · rcases List.mem_singleton.1 h with rfl
          refine Or.inr ⟨mergedEvent u o mi mj, ?_, rfl⟩
          exact mergeInner_evs_mono th u o mi rest _ _
            (List.mem_append.2 (Or.inr (List.mem_singleton.2 rfl)))
      · exact Or.inr h
    · rcases ih _ _ mid hmid with h | h
      · rcases List.mem_append.1 h with h | h
        · exact Or.inl h
        · rcases List.mem_singleton.1 h with rfl
          refine Or.inr ⟨mergedEvent u o mj mi, ?_, rfl⟩
          exact mergeInner_evs_mono th u o mi rest _ _
            (List.mem_append.2 (Or.inr (List.mem_singleton.2 rfl)))
      · exact Or.inr h
    · exact ih td evs mid hmid

lemma mergeOuter_td_sound (th : ℚ) (u o : String) :
    ∀ (ms : List MemoryEntry) (td : List Nat) (evs : List MemoryEvent),
      ∀ mid ∈ (mergeOuter th u o ms td evs).1,
        mid ∈ td ∨ ∃ ev ∈ (mergeOuter th u o ms td evs).2, droppedIds ev = [mid] := by
  intro ms
  induction ms with
  | nil => intro td evs mid hmid; simp only [mergeOuter] at hmid; exact Or.inl hmid
  | cons mi rest ih =>
    intro td evs mid hmid
    simp only [mergeOuter] at hmid ⊢
    split_ifs at hmid ⊢ with h1
    · exact ih td evs mid hmid
    · rcases ih _ _ mid hmid with h | h
      · rcases mergeInner_td_sound th u o mi rest td evs mid h with h2 | ⟨ev, hev, hd⟩
        · exact Or.inl h2
        · exact Or.inr ⟨ev, mergeOuter_evs_mono th u o rest _ _ hev, hd⟩
      · exact Or.inr h

lemma mergeInner_marks (th : ℚ) (u o : String) (mi : MemoryEntry) :
    ∀ (rest : List MemoryEntry) (td : List Nat) (evs : List MemoryEvent),
      ∀ mj ∈ rest, mergeDen2 mi mj ≠ 0 → simAtLeast th mi mj = true →
        mi.id ∈ (mergeInner th u o mi rest td evs).1 ∨
        mj.id ∈ (mergeInner th u o mi rest td evs).1 := by
  intro rest
  induction rest with
  | nil => intro td evs mj hm; cases hm
  | cons mk rest ih =>
    intro td evs mj hm hden hsim
    rcases List.mem_cons.1 hm with heq | hm2
    · rw [heq] at hden hsim ⊢
      simp only [mergeInner]
      split_ifs with h1 h2
      · exact Or.inr (mergeInner_td_mono th u o mi rest td evs h1)
      · refine Or.inr (mergeInner_td_mono th u o mi rest _ _ ?_)
        exact List.mem_append.2 (Or.inr (List.mem_singleton.2 rfl))
      · refine Or.inl (mergeInner_td_mono th u o mi rest _ _ ?_)
        exact List.mem_append.2 (Or.inr (List.mem_singleton.2 rfl))
    · simp only [mergeInner]
      split_ifs with h1 h2 h3 h4
      · exact ih td evs mj hm2 hden hsim
      · exact ih td evs mj hm2 hden hsim
      · exact ih _ _ mj hm2 hden hsim
      · exact ih _ _ mj hm2 hden hsim
      · exact ih td evs mj hm2 hden hsim

lemma mergeOuter_marks (th : ℚ) (u o : String) :
    ∀ (ms : List MemoryEntry) (td : List Nat) (evs : List MemoryEvent)
      (X Y : MemoryEntry), [X, Y].Sublist ms →
      mergeDen2 X Y ≠ 0 → simAtLeast th X Y = true →
      X.id ∈ (mergeOuter th u o ms td evs).1 ∨ Y.id ∈ (mergeOuter th u o ms td evs).1 := by
  intro ms
  induction ms with
  | nil => intro td evs X Y hsub; cases hsub
  | cons mi rest ih =>
    intro td evs X Y hsub hden hsim
    cases hsub with
    | cons _ hsub2 =>
      simp only [mergeOuter]
      split_ifs with h1
      · exact ih td evs X Y hsub2 hden hsim
      · exact ih _ _ X Y hsub2 hden hsim
    | cons₂ _ hsub2 =>
      have hY : Y ∈ rest := List.singleton_sublist.1 hsub2
      simp only [mergeOuter]
      split_ifs with h1
      · exact Or.inl (mergeOuter_td_mono th u o rest td evs h1)
      · rcases mergeInner_marks th u o mi rest td evs Y hY hden hsim with h | h
        · exact Or.inl (mergeOuter_td_mono th u o rest _ _ h)
        · exact Or.inr (mergeOuter_td_mono th u o rest _ _ h)

lemma mergeInner_no_qual (th : ℚ) (u o : String) (mi : MemoryEntry) :
    ∀ (rest : List MemoryEntry) (td : List Nat) (evs : List MemoryEvent),
      (∀ mj ∈ rest, mergeDen2 mi mj = 0 ∨ simAtLeast th mi mj = false) →
      mergeInner th u o mi rest td evs = (td, evs) := by
  intro rest
  induction rest with
  | nil => intro td evs _; simp [mergeInner]
  | cons mj rest ih =>
    intro td evs h
    have hmj := h mj (List.mem_cons_self mj rest)
    have hrest : ∀ mk ∈ rest, mergeDen2 mi mk = 0 ∨ simAtLeast th mi mk = false :=
      fun mk hm => h mk (List.mem_cons_of_mem mj hm)
    simp only [mergeInner]
    split_ifs with h1 h2 h3 h4
    · exact ih td evs hrest
    · exact ih td evs hrest
    · rcases hmj with hd | hs
      · exact absurd hd h2
      · rw [h3] at hs; cases hs
    · rcases hmj with hd | hs
      · exact absurd hd h2
      · rw [h3] at hs; cases hs
    · exact ih td evs hrest

lemma mergeOuter_no_qual (th : ℚ) (u o : String) :
    ∀ (ms : List MemoryEntry) (td : List Nat) (evs : List MemoryEvent),
      (∀ X Y, [X, Y].Sublist ms →
        mergeDen2 X Y = 0 ∨ simAtLeast th X Y = false) →
      mergeOuter th u o ms td evs = (td, evs) := by
  intro ms
  induction ms with
  | nil => intro td evs _; simp [mergeOuter]
  | cons mi rest ih =>
    intro td evs h
    have hrest : ∀ X Y, [X, Y].Sublist rest → mergeDen2 X Y = 0 ∨ simAtLeast th X Y = false :=
      fun X Y hsub => h X Y (hsub.trans (List.sublist_cons_self mi rest))
    have hhead : ∀ mj ∈ rest, mergeDen2 mi mj = 0 ∨ simAtLeast th mi mj = false :=
      fun mj hm => h mi mj (List.Sublist.cons₂ mi (List.singleton_sublist.2 hm))
    simp only [mergeOuter]
    split_ifs with h1
    · exact ih td evs hrest
    · rw [mergeInner_no_qual th u o mi rest td evs hhead]
      exact ih td evs hrest

lemma applyActions_append (st : Store) (a1 a2 : List StoreAction) :
    applyActions st (a1 ++ a2) = applyActions (applyActions st a1) a2 :=
  List.foldl_append applyAction st a1 a2

lemma applyActions_logs (st : Store) (evs : List MemoryEvent) :
    applyActions st (evs.map .log) = st := by
  induction evs with
  | nil => rfl
  | cons ev rest ih => simpa [applyActions, applyAction] using ih

lemma mergeRedundant_eq (st : Store) (u o : String) (th : ℚ) :
    mergeRedundant st u o th =
      if (mergeScan st u o th).1.isEmpty then st
      else st.filter fun e => decide (e.id ∉ (mergeScan st u o th).1) := by
  simp only [mergeRedundant, mergeActs]
  rw [applyActions_append, applyActions_logs]
  split_ifs with h
  · rfl
  · rfl

lemma mergeScan_eq (st : Store) (u o : String) (th : ℚ) :
    mergeScan st u o th =
      if (listAll st u o).length < 2 then ([], [])
      else mergeOuter th u o (listAll st u o) [] [] := rfl

/-- Per-entry spec of the decay step on a partition row, for a nonnegative
decay rate. -/
lemma decayStep_spec (u o : String) (now rate : ℚ) (hr : 0 ≤ rate) (e : MemoryEntry)
    (hp : e.user_id = u) (ho : e.owner_type = o) :
    (decayStep u o now rate e).importance
        = max 0 (e.importance - rate * max 0 ((now - e.last_used_at) / 86400)) ∧
    (decayStep u o now rate e ≠ e → (decayStep u o now rate e).last_used_at = now) ∧
    0 ≤ (decayStep u o now rate e).importance ∧
    (0 ≤ e.importance → (decayStep u o now rate e).importance ≤ e.importance) := by
  have hrd : 0 ≤ rate * max 0 ((now - e.last_used_at) / 86400) :=
    mul_nonneg hr (le_max_left 0 _)
  simp only [decayStep, if_pos (And.intro hp ho)]
  split_ifs with h
  · refine ⟨h.symm, fun hne => absurd rfl hne, ?_, fun _ => le_refl _⟩
    rw [← h]
    exact le_max_left 0 _
  · refine ⟨rfl, fun _ => rfl, le_max_left 0 _, fun h0 => ?_⟩
    exact max_le h0 (by linarith)

lemma decayStep_offpart (u o : String) (now rate : ℚ) (e : MemoryEntry)
    (h : ¬(e.user_id = u ∧ e.owner_type = o)) : decayStep u o now rate e = e := by
  simp only [decayStep, if_neg h]

/-- Shape of a successful `add_memory`: exactly one appended row carrying
the caller's importance unclamped. -/
lemma addMemory_ok {ef : String → Except String (List ℚ)} {st : Store}
    {u o c : String} {tags : List String} {imp pl : ℚ} {md : Option String}
    {emb : Option (List ℚ)} {now : ℚ} {st2 : Store} {i : Nat}
    (h : addMemory ef st u o c tags imp pl md emb now = .ok (st2, i)) :
    ∃ v, st2 = st ++ [⟨nextId st, u, o, c, v, tags, imp, pl, now, now, md⟩] := by
  cases emb with
  | none =>
    simp only [addMemory] at h
    cases hef : ef c with
    | error err => rw [hef] at h; cases h
    | ok v =>
      rw [hef] at h
      simp only [Except.ok.injEq, Prod.mk.injEq] at h
      exact ⟨v, h.1.symm⟩
  | some v =>
    simp only [addMemory] at h
    by_cases hv : v.isEmpty
    · rw [if_pos hv] at h
      cases hef : ef c with
      | error err => rw [hef] at h; cases h
      | ok w =>
        rw [hef] at h
        simp only [Except.ok.injEq, Prod.mk.injEq] at h
        exact ⟨w, h.1.symm⟩
    · rw [if_neg hv] at h
      simp only [Except.ok.injEq, Prod.mk.injEq] at h
      exact ⟨v, h.1.symm⟩

lemma searchScored_mem {candidates : Store} {q : List ℚ} {p : MemoryEntry × ℚ × ℚ}
    (h : p ∈ searchScored candidates q) :
    p.1 ∈ candidates ∧ norm2 q * norm2 p.1.embedding ≠ 0 ∧
      p = (p.1, dotQ q p.1.embedding * (1 + p.1.importance),
           norm2 q * norm2 p.1.embedding) := by
  unfold searchScored at h
  rcases List.mem_filterMap.1 h with ⟨e, he, hsome⟩
  by_cases hd : norm2 q * norm2 e.embedding = 0
  · rw [if_pos hd] at hsome; cases hsome
  · rw [if_neg hd] at hsome
    have := Option.some.inj hsome
    subst this
    exact ⟨he, hd, rfl⟩

lemma updateLastUsed_nil (st : Store) (now : ℚ) : updateLastUsed st [] now = st := by
  simp [updateLastUsed]

/-- Whatever branch `search` takes, the store it leaves behind is the bulk
touch of exactly the returned ids. -/
lemma search_snd (st : Store) (u o : String) (q : List ℚ) (limit : Nat) (now : ℚ) :
    (search st u o q limit now).2 =
      updateLastUsed st ((search st u o q limit now).1.map (·.id)) now := by
  simp only [search]
  split_ifs with h1 h2 h3
  · rw [List.map_nil, updateLastUsed_nil]
  · rw [List.map_nil, updateLastUsed_nil]
  · rw [List.isEmpty_iff] at h3
    rw [h3, List.map_nil, updateLastUsed_nil]
  · rfl

lemma search_fst (st : Store) (u o : String) (q : List ℚ) (limit : Nat) (now : ℚ)
    (h1 : listAll st u o ≠ []) (h2 : norm2 q ≠ 0) :
    (search st u o q limit now).1 =
      ((((searchScored (listAll st u o) q).mergeSort scoredGE).take limit).map (·.1)) := by
  have h1e : ¬((listAll st u o).isEmpty = true) := by
    rw [List.isEmpty_iff]; exact h1
  simp only [search, if_neg h1e, if_neg h2]
  split_ifs with h <;> rfl

lemma search_fst_empty (st : Store) (u o : String) (q : List ℚ) (limit : Nat) (now : ℚ)
    (h : listAll st u o = []) : (search st u o q limit now).1 = [] := by
  have h1e : (listAll st u o).isEmpty = true := by rw [List.isEmpty_iff]; exact h
  simp only [search, if_pos h1e]

/-- C10: an entry whose importance is already 0 is left entirely unchanged
by `decay_importance` — no write happens, and in particular `last_used_at`
is not reset — regardless of how much time has elapsed, because the
computed value `max 0 (0 - rate * days)` equals the stored importance, so
the skip condition fires; `decay_importance` itself is the row-wise map of
this step. -/
theorem decay_skips_zero_importance (u o : String) (now rate : ℚ) (e : MemoryEntry)
    (hr : 0 ≤ rate) (h0 : e.importance = 0) :
    decayStep u o now rate e = e ∧
    ∀ st : Store, decayImportance st u o now rate = st.map (decayStep u o now rate) := by
  constructor
  · by_cases hp : e.user_id = u ∧ e.owner_type = o
    · simp only [decayStep, if_pos hp]
      have hnn : 0 ≤ rate * max 0 ((now - e.last_used_at) / 86400) :=
        mul_nonneg hr (le_max_left 0 _)
      have hd : max 0 (e.importance - rate * max 0 ((now - e.last_used_at) / 86400))
          = e.importance := by
        rw [h0]
        exact max_eq_left (by linarith)
      rw [if_pos hd]
    · exact decayStep_offpart u o now rate e hp
  · intro st; rfl

/-- C10 witness: at rate 1/100 with ten days elapsed, the zero-importance
demo entry is untouched. -/
theorem decay_skips_zero_importance_witness :
    ((0 : ℚ) ≤ 1/100 ∧ entZ.importance = 0) ∧
    decayStep "u" "user" 864000 (1/100) entZ = entZ :=
  ⟨⟨by norm_num, rfl⟩,
   (decay_skips_zero_importance "u" "user" 864000 (1/100) entZ (by norm_num) rfl).1⟩

/-- C5: for a nonnegative decay rate, `decay_importance` deletes no entry
(the row count is preserved and it is exactly the row-wise map of
`decayStep`), and on every partition row the new importance is
`max 0 (importance - rate * max 0 ((now - last_used_at)/86400))`, any
changed row gets `last_used_at = now`, and importance never increases (for
nonnegative starting importance) and never drops below 0. -/
theorem decay_importance_spec (st : Store) (u o : String) (now rate : ℚ) (hr : 0 ≤ rate) :
    (decayImportance st u o now rate).length = st.length ∧
    decayImportance st u o now rate = st.map (decayStep u o now rate) ∧
    ∀ e ∈ st, e.user_id = u → e.owner_type = o →
      ((decayStep u o now rate e).importance
          = max 0 (e.importance - rate * max 0 ((now - e.last_used_at) / 86400)) ∧
       (decayStep u o now rate e ≠ e → (decayStep u o now rate e).last_used_at = now) ∧
       0 ≤ (decayStep u o now rate e).importance ∧
       (0 ≤ e.importance → (decayStep u o now rate e).importance ≤ e.importance)) := by
  refine ⟨List.length_map st _, rfl, ?_⟩
  intro e _ hp ho
  exact decayStep_spec u o now rate hr e hp ho

/-- C5 witness: decay at rate 1/100 over the demo store preserves the row
count. -/
theorem decay_importance_spec_witness :
    (0 : ℚ) ≤ 1/100 ∧
    (decayImportance demoStore "u" "user" 86400 (1/100)).length = demoStore.length :=
  ⟨by norm_num,
   (decay_importance_spec demoStore "u" "user" 86400 (1/100) (by norm_num)).1⟩

/-- C4: the store `search` leaves behind is the bulk `last_used_at := now`
touch of exactly the returned ids, applied inside `search` itself: when the
result is empty nothing is touched, no entry is added or removed, and row
`i` of the new store is row `i` of the old one with only `last_used_at`
changed — and only when its id is among the returned ids. -/
theorem search_touch_frame (st : Store) (u o : String) (q : List ℚ) (limit : Nat)
    (now : ℚ) :
    ((search st u o q limit now).1 = [] → (search st u o q limit now).2 = st) ∧
    (search st u o q limit now).2.length = st.length ∧
    ∀ i : Nat, (search st u o q limit now).2.get? i =
      (st.get? i).map fun e =>
        if e.id ∈ (search st u o q limit now).1.map (·.id)
        then { e with last_used_at := now } else e := by
  have hs := search_snd st u o q limit now
  refine ⟨fun h1 => by rw [hs, h1, List.map_nil, updateLastUsed_nil], ?_, ?_⟩
  · rw [hs]; simp [updateLastUsed]
  · intro i
    rw [hs]
    simp [updateLastUsed, List.get?_map]

/-- C4 witness: instantiated at the demo store and a concrete query. -/
theorem search_touch_frame_witness :
    (search demoStore "u" "user" [1] 2 5).2.length = demoStore.length :=
  (search_touch_frame demoStore "u" "user" [1] 2 5).2.1

/-- C3: with a non-empty partition and a non-zero-magnitude query, `search`
returns at most `limit` entries, ordered by non-increasing real score
`cosine * (1 + importance)`; entries with zero-magnitude embeddings never
appear in the result; and an empty partition always yields an empty
result. -/
theorem search_ranking_spec (st : Store) (u o : String) (q : List ℚ) (limit : Nat)
    (now : ℚ) (hne : listAll st u o ≠ []) (hq : norm2 q ≠ 0) :
    (search st u o q limit now).1.length ≤ limit ∧
    (search st u o q limit now).1.Pairwise
      (fun a b => entryScore q b ≤ entryScore q a) ∧
    (∀ e ∈ (search st u o q limit now).1, norm2 e.embedding ≠ 0) ∧
    (∀ st2 : Store, listAll st2 u o = [] → (search st2 u o q limit now).1 = []) := by
  rw [search_fst st u o q limit now hne hq]
  have hmemsc : ∀ p ∈ (((searchScored (listAll st u o) q).mergeSort scoredGE).take limit),
      p ∈ searchScored (listAll st u o) q := fun p hp =>
    (List.mergeSort_perm (searchScored (listAll st u o) q) scoredGE).mem_iff.1
      (List.take_subset limit _ hp)
  refine ⟨?_, ?_, ?_, ?_⟩
  · rw [List.length_map, List.length_take]
    exact min_le_left _ _
  · rw [List.pairwise_map]
    have hp : (((searchScored (listAll st u o) q).mergeSort scoredGE)).Pairwise
        (fun a b => scoredGE a b = true) :=
      List.sorted_mergeSort scoredGE_trans scoredGE_total _
    have hp2 := hp.sublist (List.take_sublist limit _)
    refine hp2.imp_of_mem ?_
    intro p1 p2 h1 h2 hge
    obtain ⟨hm1, hd1, he1⟩ := searchScored_mem (hmemsc p1 h1)
    obtain ⟨hm2, hd2, he2⟩ := searchScored_mem (hmemsc p2 h2)
    have hpos1 : (0:ℚ) < norm2 q * norm2 p1.1.embedding :=
      lt_of_le_of_ne (mul_nonneg (norm2_nonneg _) (norm2_nonneg _)) (Ne.symm hd1)
    have hpos2 : (0:ℚ) < norm2 q * norm2 p2.1.embedding :=
      lt_of_le_of_ne (mul_nonneg (norm2_nonneg _) (norm2_nonneg _)) (Ne.symm hd2)
    exact scoredGE_entryScore he1 he2 hpos1 hpos2 hge
  · intro e he
    rcases List.mem_map.1 he with ⟨p, hp, rfl⟩
    obtain ⟨_, hd, _⟩ := searchScored_mem (hmemsc p hp)
    intro h0
    exact hd (by rw [h0, mul_zero])
  · intro st2 h
    exact search_fst_empty st2 u o q limit now h

/-- C3 witness: the demo partition with query `[1]` satisfies both
hypotheses, and the result respects the limit. -/
theorem search_ranking_spec_witness :
    (listAll demoStore "u" "user" ≠ [] ∧ norm2 [1] ≠ (0:ℚ)) ∧
    (search demoStore "u" "user" [1] 2 5).1.length ≤ 2 :=
  ⟨⟨by simp [listAll, demoStore, entA, entB, entC], by norm_num [norm2, dotQ]⟩,
   (search_ranking_spec demoStore "u" "user" [1] 2 5
      (by simp [listAll, demoStore, entA, entB, entC]) (by norm_num [norm2, dotQ])).1⟩

/-- C2: after `prune_caps`, each owner partition holds at most its total
cap and, for every configured tag, at most that tag's cap among entries
carrying it; and any single cap check that must remove `k = rows - cap`
entries logs and deletes exactly the first `k` rows of the ascending
`(importance, last_used_at)` order (which the sortedness conjunct makes
meaningful), deleting every entry below the cut and none above it. -/
theorem prune_caps_spec (st : Store) (u : String) (capU capA : Nat)
    (tagCaps : List (String × Nat)) (hN : (st.map (·.id)).Nodup) :
    countOwner (pruneCaps st u capU capA tagCaps) u "user" ≤ capU ∧
    countOwner (pruneCaps st u capU capA tagCaps) u "assistant" ≤ capA ∧
    (∀ tc ∈ tagCaps,
      countTag (pruneCaps st u capU capA tagCaps) u "user" tc.1 ≤ tc.2 ∧
      countTag (pruneCaps st u capU capA tagCaps) u "assistant" tc.1 ≤ tc.2) ∧
    (∀ o2 : String, ∀ cap : Nat, cap < (capSorted st u o2).length →
      (pruneTotalActs st u o2 cap =
        [.log ⟨u, o2, none, "prune_total", .pruneDropped
            (((capSorted st u o2).take ((capSorted st u o2).length - cap)).map (·.id))⟩,
         .del (((capSorted st u o2).take ((capSorted st u o2).length - cap)).map (·.id))] ∧
       (capSorted st u o2).Pairwise (fun a b => capKeyLE a b = true) ∧
       (∀ e ∈ (capSorted st u o2).take ((capSorted st u o2).length - cap),
          e ∉ pruneTotal st u o2 cap) ∧
       (∀ e ∈ (capSorted st u o2).drop ((capSorted st u o2).length - cap),
          e ∈ pruneTotal st u o2 cap))) ∧
    (∀ o2 tg : String, ∀ cap : Nat, cap < (capSortedTag st u o2 tg).length →
      (pruneTagActs st u o2 tg cap =
        [.log ⟨u, o2, none, "prune_tag", .tagDropped tg
            (((capSortedTag st u o2 tg).take
                ((capSortedTag st u o2 tg).length - cap)).map (·.id))⟩,
         .del (((capSortedTag st u o2 tg).take
                ((capSortedTag st u o2 tg).length - cap)).map (·.id))] ∧
       (∀ e ∈ (capSortedTag st u o2 tg).take ((capSortedTag st u o2 tg).length - cap),
          e ∉ pruneTag st u o2 tg cap) ∧
       (∀ e ∈ (capSortedTag st u o2 tg).drop ((capSortedTag st u o2 tg).length - cap),
          e ∈ pruneTag st u o2 tg cap))) := by
  simp only [pruneCaps]
  refine ⟨?_, ?_, ?_, ?_, ?_⟩
  · calc countOwner (tagCaps.foldl _ _) u "user"
        ≤ countOwner (pruneTotal (pruneTotal st u "user" capU) u "assistant" capA)
            u "user" :=
          countOwner_mono u "user" (foldl_pruneTags_sublist u tagCaps _)
      _ ≤ countOwner (pruneTotal st u "user" capU) u "user" :=
          countOwner_mono u "user" (pruneTotal_sublist _ u "assistant" capA)
      _ ≤ capU := countOwner_pruneTotal_le st u "user" capU
  · calc countOwner (tagCaps.foldl _ _) u "assistant"
        ≤ countOwner (pruneTotal (pruneTotal st u "user" capU) u "assistant" capA)
            u "assistant" :=
          countOwner_mono u "assistant" (foldl_pruneTags_sublist u tagCaps _)
      _ ≤ capA := countOwner_pruneTotal_le _ u "assistant" capA
  · exact foldl_pruneTags_tag_le u tagCaps _
  · intro o2 cap hcap
    have hsplit := ban_take_mem st (capSorted st u o2) ((capSorted st u o2).length - cap)
      (capSorted_ids_nodup u o2 hN) (fun e he => capSorted_mem_store he)
    refine ⟨?_, capSorted_sorted st u o2, ?_, ?_⟩
    · simp only [pruneTotalActs]
      rw [if_neg (not_le.2 hcap)]
    · intro e he
      rw [pruneTotal_eq, if_neg (not_le.2 hcap)]
      exact hsplit.1 e he
    · intro e he
      rw [pruneTotal_eq, if_neg (not_le.2 hcap)]
      exact hsplit.2 e he
  · intro o2 tg cap hcap
    have hnd : ((capSortedTag st u o2 tg).map (·.id)).Nodup :=
      ((List.filter_sublist (capSorted st u o2)).map (·.id)).nodup
        (capSorted_ids_nodup u o2 hN)
    have hmem : ∀ e ∈ capSortedTag st u o2 tg, e ∈ st := fun e he =>
      capSorted_mem_store (List.mem_of_mem_filter he)
    have hsplit := ban_take_mem st (capSortedTag st u o2 tg)
      ((capSortedTag st u o2 tg).length - cap) hnd hmem
    refine ⟨?_, ?_, ?_⟩
    · simp only [pruneTagActs]
      rw [if_neg (not_le.2 hcap)]
    · intro e he
      rw [pruneTag_eq, if_neg (not_le.2 hcap)]
      exact hsplit.1 e he
    · intro e he
      rw [pruneTag_eq, if_neg (not_le.2 hcap)]
      exact hsplit.2 e he

/-- C2 witness: the three-row demo store (unique ids) under total cap 1 for
`user` ends with at most one entry in the partition, and the `preference`
tag cap of 1 holds as well. -/
theorem prune_caps_spec_witness :
    (demoStore.map (·.id)).Nodup ∧
    countOwner (pruneCaps demoStore "u" 1 9 [("preference", 1)]) "u" "user" ≤ 1 :=
  ⟨by simp [demoStore, entA, entB, entC],
   (prune_caps_spec demoStore "u" 1 9 [("preference", 1)]
      (by simp [demoStore, entA, entB, entC])).1⟩

lemma mergeScan_td_sound (st : Store) (u o : String) (th : ℚ) :
    ∀ mid ∈ (mergeScan st u o th).1,
      ∃ ev ∈ (mergeScan st u o th).2, droppedIds ev = [mid] := by
  rw [mergeScan_eq]
  split_ifs with h
  · intro mid hmid; cases hmid
  · intro mid hmid
    rcases mergeOuter_td_sound th u o _ [] [] mid hmid with h2 | h2
    · cases h2
    · exact h2

/-- C9: `merge_redundant` is idempotent on deletions — run immediately
again on the partition it just cleaned, the scan marks nothing, and the
store is unchanged.  (After the first pass, every above-threshold pair had
at least one member deleted, so no qualifying pair survives.) -/
theorem merge_redundant_idempotent (st : Store) (u o : String) (th : ℚ) :
    (mergeScan (mergeRedundant st u o th) u o th).1 = [] ∧
    mergeRedundant (mergeRedundant st u o th) u o th = mergeRedundant st u o th := by
  have hmain : (mergeScan (mergeRedundant st u o th) u o th).1 = [] := by
    by_cases h0 : (mergeScan st u o th).1.isEmpty
    · have hst : mergeRedundant st u o th = st := by rw [mergeRedundant_eq, if_pos h0]
      rw [hst]
      exact List.isEmpty_iff.1 h0
    · have hst : mergeRedundant st u o th =
          st.filter fun e => decide (e.id ∉ (mergeScan st u o th).1) := by
        rw [mergeRedundant_eq, if_neg h0]
      have hlen : ¬((listAll st u o).length < 2) := by
        intro hlt
        rw [mergeScan_eq, if_pos hlt] at h0
        exact h0 rfl
      have hscan1 : mergeScan st u o th = mergeOuter th u o (listAll st u o) [] [] := by
        rw [mergeScan_eq, if_neg hlen]
      have hpart : listAll (mergeRedundant st u o th) u o =
          (listAll st u o).filter fun e => decide (e.id ∉ (mergeScan st u o th).1) := by
        rw [hst, listAll_filter]
      rw [mergeScan_eq]
      split_ifs with hlt2
      · rfl
      · have hnoq : ∀ X Y, [X, Y].Sublist (listAll (mergeRedundant st u o th) u o) →
            mergeDen2 X Y = 0 ∨ simAtLeast th X Y = false := by
          intro X Y hsub
          by_cases hden : mergeDen2 X Y = 0
          · exact Or.inl hden
          · right
            by_contra hsim2
            have hsim : simAtLeast th X Y = true := by
              revert hsim2
              cases simAtLeast th X Y <;> simp
            have hsubms : [X, Y].Sublist (listAll st u o) := by
              rw [hpart] at hsub
              exact hsub.trans (List.filter_sublist _)
            have hmark := mergeOuter_marks th u o (listAll st u o) [] [] X Y hsubms hden hsim
            rw [← hscan1] at hmark
            have hXin : X ∈ listAll (mergeRedundant st u o th) u o :=
              hsub.subset (List.mem_cons_self _ _)
            have hYin : Y ∈ listAll (mergeRedundant st u o th) u o :=
              hsub.subset (List.mem_cons_of_mem _ (List.mem_singleton.2 rfl))
            rw [hpart] at hXin hYin
            have hXout : X.id ∉ (mergeScan st u o th).1 :=
              of_decide_eq_true (List.mem_filter.1 hXin).2
            have hYout : Y.id ∉ (mergeScan st u o th).1 :=
              of_decide_eq_true (List.mem_filter.1 hYin).2
            rcases hmark with h | h
            · exact hXout h
            · exact hYout h
        rw [mergeOuter_no_qual th u o _ [] [] hnoq]
  refine ⟨hmain, ?_⟩
  rw [mergeRedundant_eq (mergeRedundant st u o th), hmain]
  simp

/-- C1 (amended): every `merged` event of a `merge_redundant` pass comes
from an ordered pair (X scanned earlier, Y later) of partition entries with
nonzero norms and cosine similarity at least the threshold; the recorded
survivor is the equal-or-higher-importance member (ties keep the earlier
one) and the recorded dropped id is really deleted by the pass; conversely
every deleted id is named as dropped by some event.  (The not-yet-marked
check covers only the later member at merge time — the earlier member is
checked only when its outer scan starts — so the recorded survivor may
itself be deleted later in the same pass.) -/
theorem merge_events_characterization (st : Store) (u o : String) (th : ℚ) :
    (∀ ev ∈ (mergeScan st u o th).2,
      ∃ X Y, [X, Y].Sublist (listAll st u o) ∧
        norm2 X.embedding ≠ 0 ∧ norm2 Y.embedding ≠ 0 ∧
        (th : ℝ) ≤ cosineSim X.embedding Y.embedding ∧
        ((Y.importance ≤ X.importance ∧ ev = mergedEvent u o X Y ∧
            Y.id ∈ (mergeScan st u o th).1) ∨
         (¬(Y.importance ≤ X.importance) ∧ ev = mergedEvent u o Y X ∧
            X.id ∈ (mergeScan st u o th).1))) ∧
    (∀ mid ∈ (mergeScan st u o th).1,
      ∃ ev ∈ (mergeScan st u o th).2, droppedIds ev = [mid]) := by
  refine ⟨?_, mergeScan_td_sound st u o th⟩
  rw [mergeScan_eq]
  split_ifs with hlt
  · intro ev hev; cases hev
  · intro ev hev
    rcases mergeOuter_evs_sound th u o (listAll st u o) [] [] ev hev with
      h | ⟨X, Y, hsub, hden, hsim, hcase⟩
    · cases h
    · have hnx : norm2 X.embedding ≠ 0 := fun hx => hden (by
        unfold mergeDen2; rw [hx, zero_mul])
      have hny : norm2 Y.embedding ≠ 0 := fun hy => hden (by
        unfold mergeDen2; rw [hy, mul_zero])
      exact ⟨X, Y, hsub, hnx, hny, (simAtLeast_iff hnx hny).1 hsim, hcase⟩

/-- C1 counterexample: on the three-entry demo partition (pairwise cosine
similarity 1, importances 1/2, 3/5, 2/5, threshold 19/20) the pass deletes
ids 1 and 3, and the second `merged` event records id 1 as the survivor —
an id deleted by the same pass.  So a pair is merged even though one member
(the earlier-scanned one) was already marked for deletion, and a `merged`
event's surviving id is not always disjoint from the pass's deletions. -/
theorem merge_survivor_deleted_cex :
    (mergeScan demoStore "u" "user" (19/20)).1 = [1, 3] ∧
    (mergeScan demoStore "u" "user" (19/20)).2.map (·.memory_id) = [some 2, some 1] ∧
    (1 : Nat) ∈ (mergeScan demoStore "u" "user" (19/20)).1 := by
  refine ⟨?_, ?_, ?_⟩ <;>
    norm_num [mergeScan, mergeOuter, mergeInner, listAll, demoStore, entA, entB, entC,
      mergeDen2, simAtLeast, scoreKey, norm2, dotQ, mergedEvent, droppedIds]

/-- C1 witness: the amended characterization instantiated on the demo
partition — deleted id 1 is named dropped by one of the pass's events. -/
theorem merge_events_characterization_witness :
    ∃ ev ∈ (mergeScan demoStore "u" "user" (19/20)).2, droppedIds ev = [1] :=
  (merge_events_characterization demoStore "u" "user" (19/20)).2 1
    (by norm_num [mergeScan, mergeOuter, mergeInner, listAll, demoStore, entA, entB,
      entC, mergeDen2, simAtLeast, scoreKey, norm2, dotQ, mergedEvent])

lemma loggedBeforeDeleted_pair (u o : String) (ev : MemoryEvent) (ids : List Nat)
    (hd : ids = droppedIds ev) :
    LoggedBeforeDeleted [.log ev, .del ids] := by
  intro i ids2 hget mid hmid
  match i with
  | 0 => cases hget
  | 1 =>
    simp only [List.get?] at hget
    have hids : ids = ids2 := by
      have := Option.some.inj hget
      cases this
      rfl
    refine ⟨0, by norm_num, ev, rfl, ?_⟩
    rw [← hids] at hmid
    rw [← hd]
    exact hmid
  | n + 2 => cases hget

lemma loggedBeforeDeleted_nil : LoggedBeforeDeleted [] := by
  intro i ids hget
  cases i <;> cases hget

/-- C8: in all three maintenance passes, each delete action is strictly
preceded in the pass's action trace by log records naming every deleted id
as dropped — so a mid-batch storage failure can leave ids logged but not
deleted, never deleted but unlogged. -/
theorem log_before_delete_ordering (st : Store) (u o tg : String) (cap : Nat) (th : ℚ) :
    LoggedBeforeDeleted (pruneTotalActs st u o cap) ∧
    LoggedBeforeDeleted (pruneTagActs st u o tg cap) ∧
    LoggedBeforeDeleted (mergeActs st u o th) := by
  refine ⟨?_, ?_, ?_⟩
  · simp only [pruneTotalActs]
    split_ifs with h
    · exact loggedBeforeDeleted_nil
    · exact loggedBeforeDeleted_pair u o _ _ rfl
  · simp only [pruneTagActs]
    split_ifs with h
    · exact loggedBeforeDeleted_nil
    · exact loggedBeforeDeleted_pair u o _ _ rfl
  · simp only [mergeActs]
    split_ifs with h
    · rw [List.append_nil]
      intro i ids hget
      rw [List.get?_map] at hget
      cases hm : ((mergeScan st u o th).2).get? i with
      | none => rw [hm] at hget; cases hget
      | some ev => rw [hm] at hget; cases hget
    · intro i ids hget mid hmid
      set evs := (mergeScan st u o th).2 with hevs
      set td := (mergeScan st u o th).1 with htd
      by_cases hi : i < (evs.map StoreAction.log).length
      · rw [List.get?_append hi, List.get?_map] at hget
        cases hm : evs.get? i with
        | none => rw [hm] at hget; cases hget
        | some ev => rw [hm] at hget; cases hget
      · push_neg at hi
        rw [List.get?_append_right hi] at hget
        have hzero : i - (evs.map StoreAction.log).length = 0 := by
          cases hd : i - (evs.map StoreAction.log).length with
          | zero => rfl
          | succ n => rw [hd] at hget; cases hget
        rw [hzero] at hget
        have hids : td = ids := by
          have h2 := Option.some.inj hget
          injection h2 with h3
        rw [← hids] at hmid
        rcases mergeScan_td_sound st u o th mid hmid with ⟨ev, hev, hdev⟩
        rcases List.mem_iff_get?.1 hev with ⟨j, hj⟩
        have hjlt : j < evs.length := by
          by_contra hge
          push_neg at hge
          rw [List.get?_eq_none.2 hge] at hj
          cases hj
        have hjlt2 : j < (evs.map StoreAction.log).length := by
          rw [List.length_map]; exact hjlt
        refine ⟨j, lt_of_lt_of_le hjlt2 hi, ev, ?_, ?_⟩
        · rw [List.get?_append hjlt2, List.get?_map, hj]
          rfl
        · rw [hdev]
          exact List.mem_singleton.2 rfl

lemma decayStep_range (u o : String) (now rate : ℚ) (hr : 0 ≤ rate) (e : MemoryEntry)
    (h0 : 0 ≤ e.importance) (h1 : e.importance ≤ 1) :
    0 ≤ (decayStep u o now rate e).importance ∧
      (decayStep u o now rate e).importance ≤ 1 := by
  by_cases hp : e.user_id = u ∧ e.owner_type = o
  · obtain ⟨_, _, hnn, hle⟩ := decayStep_spec u o now rate hr e hp.1 hp.2
    exact ⟨hnn, le_trans (hle h0) h1⟩
  · rw [decayStep_offpart u o now rate e hp]
    exact ⟨h0, h1⟩

lemma pruneCaps_sublist (st : Store) (u : String) (capU capA : Nat)
    (tagCaps : List (String × Nat)) : (pruneCaps st u capU capA tagCaps).Sublist st := by
  simp only [pruneCaps]
  exact (foldl_pruneTags_sublist u tagCaps _).trans
    ((pruneTotal_sublist _ u "assistant" capA).trans (pruneTotal_sublist st u "user" capU))

/-- C6 counterexample: `add_memory` neither clamps nor rejects a
caller-supplied importance of 2 — the inserted row stores it as given, and
2 is out of the claimed `[0, 1]` range.  So the invariant fails on a state
reached by a single public operation. -/
theorem add_memory_unclamped_cex :
    (addMemory embedFail [] "u" "user" "c" [] 2 (1/2) none (some [1]) 0).map
        (fun p => p.1.map (·.importance)) = .ok [2] ∧
    ¬((2 : ℚ) ≤ 1) :=
  ⟨rfl, by norm_num⟩

/-- C6 (amended): provided every `add_memory` call supplies an importance
already in `[0, 1]` and the decay rate is nonnegative, every entry of every
store reachable through the public operations keeps its importance in
`[0, 1]` — `add_memory` stores the given value unchanged, decay clamps at 0
and never increases it, retrieval touches only `last_used_at`, and the
pruning/merge passes only delete. -/
theorem reachable_importance_range
    (embed : String → Except String (List ℚ)) (rate th : ℚ) (capU capA : Nat)
    (tagCaps : List (String × Nat)) (hr : 0 ≤ rate) (st : Store)
    (h : Reach embed rate th capU capA tagCaps st) :
    ∀ e ∈ st, 0 ≤ e.importance ∧ e.importance ≤ 1 := by
  induction h with
  | init => intro e he; cases he
  | add hst h0 h1 hadd ih =>
    rcases addMemory_ok hadd with ⟨v, rfl⟩
    intro e he
    rcases List.mem_append.1 he with he | he
    · exact ih e he
    · rcases List.mem_singleton.1 he with rfl
      exact ⟨h0, h1⟩
  | srch hst ih =>
    intro e he
    rw [search_snd] at he
    rcases List.mem_map.1 he with ⟨e0, he0, rfl⟩
    have hb := ih e0 he0
    split_ifs <;> exact hb
  | decay hst ih =>
    intro e he
    rcases List.mem_map.1 he with ⟨e0, he0, rfl⟩
    exact decayStep_range _ _ _ rate hr e0 (ih e0 he0).1 (ih e0 he0).2
  | prune hst ih =>
    intro e he
    exact ih e ((pruneCaps_sublist _ _ _ _ _).subset he)
  | merge hst ih =>
    intro e he
    exact ih e ((mergeRedundant_sublist _ _ _ _).subset he)

/-- C6 witness: one in-range `add_memory` call from the empty store reaches
a state whose single entry satisfies the invariant. -/
theorem reachable_importance_range_witness :
    (0 : ℚ) ≤ 1/100 ∧
    ∀ e ∈ [(⟨1, "u", "user", "c", [1], [], 1/2, 1/2, 0, 0, none⟩ : MemoryEntry)],
      0 ≤ e.importance ∧ e.importance ≤ 1 := by
  refine ⟨by norm_num, ?_⟩
  refine reachable_importance_range embedFail (1/100) (19/20) 500 500 [] (by norm_num) _
    (Reach.add Reach.init (u := "u") (o := "user") (c := "c") (by norm_num) (by norm_num)
      (show addMemory embedFail [] "u" "user" "c" [] (1/2) (1/2) none (some [1]) 0
          = .ok ([⟨1, "u", "user", "c", [1], [], 1/2, 1/2, 0, 0, none⟩], 1) from rfl))

/-- C7 counterexample: a caller passing an (empty) precomputed embedding
vector still triggers the provider, because `embedding or
self.embed_text(content)` treats the empty vector as falsy — so with the
provider down the call raises an embedding failure even though an
embedding argument was passed. -/
theorem add_memory_empty_embedding_cex :
    addMemory embedFail [] "u" "user" "c" [] (1/2) (1/2) none (some []) 0
      = .error "offline" := rfl

/-- C7 (amended): if the embedding provider fails and the caller passed no
usable precomputed vector (none, or the falsy empty vector), `add_memory`
returns exactly the provider's error and inserts nothing — the failure
happens before any write; whereas a caller passing a non-empty precomputed
vector never consults the provider (the result is identical under any
provider) and the call always succeeds, inserting exactly one row. -/
theorem add_memory_embedding_spec (ef : String → Except String (List ℚ))
    (st : Store) (u o c : String) (tags : List String) (imp pl : ℚ)
    (md : Option String) (now : ℚ) (err : String) (v : List ℚ)
    (herr : ef c = .error err) (hv : v ≠ []) :
    addMemory ef st u o c tags imp pl md none now = .error err ∧
    addMemory ef st u o c tags imp pl md (some []) now = .error err ∧
    (∀ ef2 : String → Except String (List ℚ),
      addMemory ef st u o c tags imp pl md (some v) now =
        addMemory ef2 st u o c tags imp pl md (some v) now) ∧
    addMemory ef st u o c tags imp pl md (some v) now =
      .ok (st ++ [⟨nextId st, u, o, c, v, tags, imp, pl, now, now, md⟩], nextId st) := by
  have hve : v.isEmpty = false := by
    cases v with
    | nil => exact absurd rfl hv
    | cons a as => rfl
  refine ⟨?_, ?_, ?_, ?_⟩
  · simp [addMemory, herr]
  · simp [addMemory, herr]
  · intro ef2
    simp [addMemory, hve]
  · simp [addMemory, hve]

/-- C7 witness: with the always-failing provider and the non-empty vector
`[1]`, `add_memory` succeeds and inserts the row unchanged. -/
theorem add_memory_embedding_spec_witness :
    (embedFail "c" = .error "offline" ∧ ([1] : List ℚ) ≠ []) ∧
    addMemory embedFail [] "u" "user" "c" [] (1/2) (1/2) none (some [1]) 0
      = .ok ([⟨1, "u", "user", "c", [1], [], 1/2, 1/2, 0, 0, none⟩], 1) :=
  ⟨⟨rfl, by simp⟩,
   (add_memory_embedding_spec embedFail [] "u" "user" "c" [] (1/2) (1/2) none 0
      "offline" [1] rfl (by simp)).2.2.2⟩

/-- C8 witness: the log-then-delete discipline instantiated on the demo
store's merge pass. -/
theorem log_before_delete_ordering_witness :
    LoggedBeforeDeleted (mergeActs demoStore "u" "user" (19/20)) :=
  (log_before_delete_ordering demoStore "u" "user" "preference" 1 (19/20)).2.2

/-- C9 witness: a second merge pass over the cleaned demo partition marks
nothing for deletion. -/
theorem merge_redundant_idempotent_witness :
    (mergeScan (mergeRedundant demoStore "u" "user" (19/20)) "u" "user" (19/20)).1 = [] :=
  (merge_redundant_idempotent demoStore "u" "user" (19/20)).1
